import Mathlib

/-!
Shallow embedding of the shipping-insights dashboard core
(`src/streamlit_app.py`): the filter engine, the aggregation engine and
the metrics computer, together with proofs about the claims of the
specification.

Modelling conventions:
* a pandas `DataFrame` row becomes a `ShipmentRecord`; a relation is a
  `List ShipmentRecord` in row order;
* nullable monetary columns (`IMPORT VALUE CIF` / `IMPORT VALUE FOB`)
  become `Option ℚ`; `fillna(0)` becomes `Option.getD · 0`;
* timestamps carry a date part and a time-of-day part; `.dt.date`
  projects the date part;
* pandas boolean-mask indexing returns a fresh frame, so each pipeline
  stage is a pure function of the previous relation;
* a month-end `pd.Grouper` on the arrival-date column used as the sole group key
  bins like `resample`: one bucket per calendar month from the earliest
  to the latest record, months without records included with sum 0;
  when combined with a second key (the trend analysis) only observed
  (month, product) combinations are produced, sorted by (month, product);
* float division by zero follows IEEE semantics: `x / 0` is `+inf` for
  `x > 0`, `-inf` for `x < 0` and `NaN` for `x = 0`; `dropna` removes
  `NaN` but keeps infinities.  Growth rates are therefore modelled by an
  extended value type `GrowthVal`.
-/

namespace Shipping

/-- A calendar date (the `.dt.date` projection of `ARRIVAL DATE`). -/
structure Date where
  year : Nat
  month : Nat
  day : Nat
deriving DecidableEq, Repr

/-- Lexicographic order on dates, as comparison of Python `date` objects. -/
def Date.le (a b : Date) : Prop :=
  a.year < b.year ∨
    (a.year = b.year ∧ (a.month < b.month ∨ (a.month = b.month ∧ a.day ≤ b.day)))

instance (a b : Date) : Decidable (Date.le a b) := by
  unfold Date.le; infer_instance

/-- A parsed `ARRIVAL DATE` entry: a date plus a time-of-day component
(which the date filter ignores via `.dt.date`). -/
structure Timestamp where
  date : Date
  timeOfDay : Nat
deriving DecidableEq, Repr

/-- One row of the shipping relation of a company. -/
structure ShipmentRecord where
  arrival : Timestamp
  importerName : String
  importerCountry : String
  originCountry : String
  productDetails : String
  cif : Option ℚ
  fob : Option ℚ
  quantity : ℚ
  quantityUnit : String
deriving DecidableEq, Repr

/-- An in-memory relation: the rows of a frame in order. -/
abbrev Relation := List ShipmentRecord

/-- Derived per-record value, `streamlit_app.py` line 96:
`IMPORT VALUE CIF`.fillna(0) + `IMPORT VALUE FOB`.fillna(0). -/
def totalValue (r : ShipmentRecord) : ℚ :=
  r.cif.getD 0 + r.fob.getD 0

/-- Modelled from the spec wording `coalesce(x, 0)`, for comparison with
the `fillna(0)` of the source. -/
def coalesce (o : Option ℚ) : ℚ :=
  match o with
  | none => 0
  | some x => x

/-- Date-range filter, line 50: keep rows whose arrival date (date part
only) lies between the bounds, both ends inclusive. -/
def dateFilter (df : Relation) (s e : Date) : Relation :=
  df.filter fun r => decide (Date.le s r.arrival.date ∧ Date.le r.arrival.date e)

/-- Importer filter, lines 66–67: `if selected_importers:` guards the
`isin` filter, so an empty selection applies no filter at all. -/
def importerFilter (df : Relation) (sel : List String) : Relation :=
  if sel.isEmpty then df
  else df.filter fun r => sel.contains r.importerName

/-- Country filter, lines 68–71: the sentinel `"All"` means no filter,
any other value requires exact string equality on the chosen field. -/
def countryFilterBy (df : Relation) (field : ShipmentRecord → String)
    (c : String) : Relation :=
  if c = "All" then df
  else df.filter fun r => decide (field r = c)

/-- A record used to instantiate theorems at concrete inputs. -/
def sampleRecord : ShipmentRecord :=
  { arrival := { date := { year := 2024, month := 1, day := 5 }, timeOfDay := 0 }
    importerName := "ACME"
    importerCountry := "India"
    originCountry := "China"
    productDetails := "P"
    cif := some 100
    fob := none
    quantity := 10
    quantityUnit := "PCS" }

/-- Replace the time-of-day component of the arrival timestamp of a record. -/
def setTime (t : Nat) (r : ShipmentRecord) : ShipmentRecord :=
  { r with arrival := { r.arrival with timeOfDay := t } }

/-- Distinct values of a key column, as `unique()` / the group keys of a
`groupby`; only the set of keys matters downstream, since every Top-K
ranking re-sorts by the aggregated metric. -/
def keysOf {κ : Type} [DecidableEq κ] (df : Relation) (key : ShipmentRecord → κ) :
    List κ :=
  (df.map key).dedup

/-- Sum of a metric over the records of one group. -/
def groupSum {κ : Type} [DecidableEq κ] (df : Relation) (key : ShipmentRecord → κ)
    (v : ShipmentRecord → ℚ) (k : κ) : ℚ :=
  ((df.filter fun r => decide (key r = k)).map v).sum

/-- Group-by-sum: one `(key, summed metric)` pair per distinct key. -/
def groupBySum {κ : Type} [DecidableEq κ] (df : Relation)
    (key : ShipmentRecord → κ) (v : ShipmentRecord → ℚ) : List (κ × ℚ) :=
  (keysOf df key).map fun k => (k, groupSum df key v k)

/-- The descending-by-value comparison used by
descending `sort_values` on the summed metric and by `nlargest`. -/
def valueDesc {κ : Type} (a b : κ × ℚ) : Prop :=
  b.2 ≤ a.2

instance {κ : Type} : DecidableRel (@valueDesc κ) :=
  fun a b => inferInstanceAs (Decidable (b.2 ≤ a.2))

instance {κ : Type} : IsTrans (κ × ℚ) valueDesc :=
  ⟨fun _ _ _ h1 h2 => le_trans h2 h1⟩

instance {κ : Type} : IsTotal (κ × ℚ) valueDesc :=
  ⟨fun a b => le_total b.2 a.2⟩

/-- Top-K by group: group by a key column, sum the metric, sort rows in
descending metric order, keep the first K rows (lines 74–76, 85–87 with
K = 10; `nlargest` at lines 127, 173, 189 with K = 5). -/
def topKByGroup {κ : Type} [DecidableEq κ] (df : Relation)
    (key : ShipmentRecord → κ) (v : ShipmentRecord → ℚ) (K : Nat) : List (κ × ℚ) :=
  (List.insertionSort valueDesc (groupBySum df key v)).take K

/-- Top importers, lines 74–76: the CIF and FOB columns are summed per
importer separately, each sum is null-replaced, and the two sums are
added; the ten largest totals are kept. -/
def topImporters (df : Relation) : List (String × ℚ) :=
  (List.insertionSort valueDesc
    ((keysOf df fun r => r.importerName).map fun k =>
      (k, groupSum df (fun r => r.importerName) (fun r => r.cif.getD 0) k +
          groupSum df (fun r => r.importerName) (fun r => r.fob.getD 0) k))).take 10

/-- Unit-scoped top products, lines 124–127: restrict to one quantity
unit, group by product, sum `QUANTITY`, keep the five largest. -/
def topProductsByUnit (df : Relation) (unit : String) : List (String × ℚ) :=
  topKByGroup (df.filter fun r => decide (r.quantityUnit = unit))
    (fun r => r.productDetails) (fun r => r.quantity) 5

/-- Geographic rollup, line 105: total value per importer country. -/
def geoRollup (df : Relation) : List (String × ℚ) :=
  groupBySum df (fun r => r.importerCountry) totalValue

/-- KPI `total_value`, line 137: sum of the derived total-value column. -/
def totalValueKPI (df : Relation) : ℚ :=
  (df.map totalValue).sum

/-- KPI `num_shipments`, line 138: the row count. -/
def numShipments (df : Relation) : Nat :=
  df.length

/-- KPI `num_importers`, line 139: the distinct-importer count. -/
def numImporters (df : Relation) : Nat :=
  (keysOf df fun r => r.importerName).length

/-- Quantity-unit canonicalization of one record, line 120: the legacy
label `Pieces` is replaced by `PCS`. -/
def canonUnit (r : ShipmentRecord) : ShipmentRecord :=
  { r with quantityUnit := if r.quantityUnit = "Pieces" then "PCS" else r.quantityUnit }

/-- Column-wise `replace` over the whole relation, line 120. -/
def canonicalizeUnits (df : Relation) : Relation :=
  df.map canonUnit

/-- The UI-selected filter parameters. -/
structure FilterSpec where
  startDate : Date
  endDate : Date
  importers : List String
  importerCountry : String
  originCountry : String

/-- The whole filter conjunction, lines 50 and 66–71. -/
def applyFilters (df : Relation) (s : FilterSpec) : Relation :=
  countryFilterBy
    (countryFilterBy
      (importerFilter (dateFilter df s.startDate s.endDate) s.importers)
      (fun r => r.importerCountry) s.importerCountry)
    (fun r => r.originCountry) s.originCountry

/-- The in-memory dashboard state: the cached source relation for the
selected entity, the working filtered relation, and the derived
total-value column written at line 96.  Pandas boolean-mask indexing
returns a copy, and `st.cache_data` hands out copies, so every write in
the script targets `filtered_df` only. -/
structure DashState where
  shipping : Relation
  filtered : Relation
  totalCol : List ℚ

/-- Line 50 / 66–71: recompute the filtered relation from the cache. -/
def stepFilter (s : FilterSpec) (st : DashState) : DashState :=
  { st with filtered := applyFilters st.shipping s }

/-- Line 96: derive the total-value column on the filtered copy. -/
def stepDeriveTotal (st : DashState) : DashState :=
  { st with totalCol := st.filtered.map totalValue }

/-- Line 120: canonicalize quantity units on the filtered copy. -/
def stepCanonUnit (st : DashState) : DashState :=
  { st with filtered := canonicalizeUnits st.filtered }

/-- The relation-producing steps of one render cycle, in script order. -/
def runPipeline (s : FilterSpec) (st : DashState) : DashState :=
  stepCanonUnit (stepDeriveTotal (stepFilter s st))

/-- A three-importer relation used to instantiate the Top-K theorem. -/
def df3 : Relation :=
  [{ sampleRecord with importerName := "A" },
   { sampleRecord with importerName := "B" },
   { sampleRecord with importerName := "C" }]

/-- Month index of a timestamp: months since year zero.  Consecutive
calendar months have consecutive indices, so month-end binning is
binning by this index. -/
def monthIdx (t : Timestamp) : Nat :=
  t.date.year * 12 + (t.date.month - 1)

/-- Least element of a list of naturals, `none` on the empty list. -/
def natMin? : List Nat → Option Nat
  | [] => none
  | x :: xs =>
    match natMin? xs with
    | none => some x
    | some m => some (min x m)

/-- Greatest element of a list of naturals, `none` on the empty list. -/
def natMax? : List Nat → Option Nat
  | [] => none
  | x :: xs =>
    match natMax? xs with
    | none => some x
    | some m => some (max x m)

/-- Sum of the derived total value over the records of one calendar
month. -/
def monthSum (df : Relation) (m : Nat) : ℚ :=
  ((df.filter fun r => decide (monthIdx r.arrival = m)).map totalValue).sum

/-- Time-series bucketing, line 97: a group-by over a lone month-end
time grouper, summing the derived total value.  A lone time grouper bins like
`resample`: one month-end bucket for every calendar month from the
earliest to the latest record, in chronological order, each holding the
sum of the derived total value of its records — 0 for months without
records. -/
def timeSeries (df : Relation) : List (Nat × ℚ) :=
  match natMin? (df.map fun r => monthIdx r.arrival),
        natMax? (df.map fun r => monthIdx r.arrival) with
  | some lo, some hi =>
    (List.range (hi + 1 - lo)).map fun i => (lo + i, monthSum df (lo + i))
  | _, _ => []

/-- A gap relation: one January 2024 record worth 100 and one March 2024
record worth 50, with no February record. -/
def recMar : ShipmentRecord :=
  { sampleRecord with
      arrival := { date := { year := 2024, month := 3, day := 10 }, timeOfDay := 0 }
      cif := some 50 }

def demoGap : Relation := [sampleRecord, recMar]

/-- The (month bucket, product) grouping key of line 151. -/
def recKey (r : ShipmentRecord) : Nat × String :=
  (monthIdx r.arrival, r.productDetails)

/-- The grouping keys of all records, with multiplicity. -/
def popKeys (df : Relation) : List (Nat × String) :=
  df.map recKey

/-- Lexicographic order on (month bucket, product): the order in which
the two-key group-by of line 151 emits its
rows (group keys are sorted). -/
def keyLE (a b : Nat × String) : Prop :=
  a.1 < b.1 ∨ (a.1 = b.1 ∧ a.2 ≤ b.2)

/-- Strict version of `keyLE`. -/
def keyLT (a b : Nat × String) : Prop :=
  a.1 < b.1 ∨ (a.1 = b.1 ∧ a.2 < b.2)

instance : DecidableRel keyLE := fun a b => by
  unfold keyLE; infer_instance

instance : IsTotal (Nat × String) keyLE where
  total a b := by
    rcases Nat.lt_trichotomy a.1 b.1 with h | h | h
    · exact Or.inl (Or.inl h)
    · rcases le_total a.2 b.2 with h2 | h2
      · exact Or.inl (Or.inr ⟨h, h2⟩)
      · exact Or.inr (Or.inr ⟨h.symm, h2⟩)
    · exact Or.inr (Or.inl h)

instance : IsTrans (Nat × String) keyLE where
  trans a b c h1 h2 := by
    rcases h1 with h1 | ⟨h1, h1'⟩ <;> rcases h2 with h2 | ⟨h2, h2'⟩
    · exact Or.inl (h1.trans h2)
    · exact Or.inl (h2 ▸ h1)
    · exact Or.inl (h1 ▸ h2)
    · exact Or.inr ⟨h1.trans h2, h1'.trans h2'⟩

/-- The sorted duplicate-free (month, product) keys of the trend frame,
line 151. -/
def trendKeys (df : Relation) : List (Nat × String) :=
  List.insertionSort keyLE (popKeys df).dedup

/-- Summed total value of one (month, product) cell. -/
def cellSum (df : Relation) (k : Nat × String) : ℚ :=
  ((df.filter fun r => decide (recKey r = k)).map totalValue).sum

/-- The trend frame after the two-key group-by of line 151: one row per
observed (month, product) pair, sorted by key, holding the cell sum.  A
time grouper combined with a second key produces only observed
combinations (no zero-filled cells), unlike the lone grouper of line 97. -/
def trendCells (df : Relation) : List ((Nat × String) × ℚ) :=
  (trendKeys df).map fun k => (k, cellSum df k)

/-- Value of the most recent row (scanning a reversed prefix front to
back) whose product matches — what the per-product `shift(1)` of line
152 assigns to the row after that prefix. -/
def firstValueOf (p : String) : List ((Nat × String) × ℚ) → Option ℚ
  | [] => none
  | c :: rest => if c.1.2 = p then some c.2 else firstValueOf p rest

/-- Annotate each trend row with its shifted previous value, carrying
the reversed list of already-visited rows. -/
def withPrevAux : List ((Nat × String) × ℚ) → List ((Nat × String) × ℚ) →
    List ((Nat × String) × ℚ × Option ℚ)
  | _, [] => []
  | rpre, c :: rest =>
    (c.1, c.2, firstValueOf c.1.2 rpre) :: withPrevAux (c :: rpre) rest

/-- The trend frame with the `PREV TOTAL VALUE` column of line 152:
`shift(1)` within each product group, `none` on the first row of a product. -/
def trendWithPrev (df : Relation) : List ((Nat × String) × ℚ × Option ℚ) :=
  withPrevAux [] (trendCells df)

/-- An IEEE-style extended value for the growth-rate column: a float
that may be infinite or NaN. -/
inductive GrowthVal where
  | fin (q : ℚ)
  | posInf
  | negInf
  | nan
deriving DecidableEq, Repr

/-- Growth rate of line 153, `(current - previous) / previous * 100`,
with float division semantics when the previous value is 0: `cur / 0`
is `+inf` for positive `cur`, `-inf` for negative `cur`, NaN for 0. -/
def growthRate (cur prev : ℚ) : GrowthVal :=
  if prev = 0 then
    if cur = 0 then GrowthVal.nan
    else if 0 < cur then GrowthVal.posInf
    else GrowthVal.negInf
  else GrowthVal.fin ((cur - prev) / prev * 100)

/-- The trend rows surviving `dropna()` at line 154: rows with a missing
previous value (`shift` produced NaN) and rows whose growth rate is NaN
(0/0) are removed; infinite growth rates are kept, since `dropna` does
not treat infinities as missing.  Each row is
(key, current, previous, growth). -/
def trendRows (df : Relation) : List ((Nat × String) × ℚ × ℚ × GrowthVal) :=
  (trendWithPrev df).filterMap fun c =>
    match c.2.2 with
    | none => none
    | some p =>
      if growthRate c.2.1 p = GrowthVal.nan then none
      else some (c.1, c.2.1, p, growthRate c.2.1 p)

/-- IEEE addition on extended values (NaN absorbs; opposite infinities
give NaN). -/
def gAdd : GrowthVal → GrowthVal → GrowthVal
  | GrowthVal.nan, _ => GrowthVal.nan
  | _, GrowthVal.nan => GrowthVal.nan
  | GrowthVal.posInf, GrowthVal.negInf => GrowthVal.nan
  | GrowthVal.negInf, GrowthVal.posInf => GrowthVal.nan
  | GrowthVal.posInf, _ => GrowthVal.posInf
  | _, GrowthVal.posInf => GrowthVal.posInf
  | GrowthVal.negInf, _ => GrowthVal.negInf
  | _, GrowthVal.negInf => GrowthVal.negInf
  | GrowthVal.fin a, GrowthVal.fin b => GrowthVal.fin (a + b)

/-- Division of an extended value by a positive row count. -/
def gDiv (g : GrowthVal) (n : Nat) : GrowthVal :=
  match g with
  | GrowthVal.fin q => GrowthVal.fin (q / n)
  | x => x

/-- Mean of a list of extended values (`DataFrame.mean`): NaN on the
empty list, otherwise the IEEE sum divided by the count. -/
def gMean : List GrowthVal → GrowthVal
  | [] => GrowthVal.nan
  | x :: xs => gDiv ((x :: xs).foldl gAdd (GrowthVal.fin 0)) (xs.length + 1)

/-- Descending order on extended values, as `nlargest` ranks floats:
`+inf` above every finite value, finite values by magnitude, `-inf`
below, NaN at the bottom (`nlargest` drops NaN separately). -/
def gGE : GrowthVal → GrowthVal → Prop
  | GrowthVal.nan, b => b = GrowthVal.nan
  | GrowthVal.negInf, b => b = GrowthVal.nan ∨ b = GrowthVal.negInf
  | GrowthVal.fin x, b =>
    match b with
    | GrowthVal.nan => True
    | GrowthVal.negInf => True
    | GrowthVal.fin y => y ≤ x
    | GrowthVal.posInf => False
  | GrowthVal.posInf, _ => True

instance : DecidableRel gGE := fun a b => by
  cases a <;> cases b <;> unfold gGE <;> infer_instance

/-- Descending-by-mean-growth comparison on (product, mean) pairs. -/
def gValueDesc (a b : String × GrowthVal) : Prop :=
  gGE a.2 b.2

instance : DecidableRel gValueDesc := fun a b => by
  unfold gValueDesc; infer_instance

instance : IsTotal (String × GrowthVal) gValueDesc where
  total a b := by
    unfold gValueDesc
    cases a.2 <;> cases b.2 <;> (simp [gGE]; try exact le_total _ _)

instance : IsTrans (String × GrowthVal) gValueDesc where
  trans a b c h1 h2 := by
    unfold gValueDesc at *
    cases ha : a.2 <;> cases hb : b.2 <;> cases hc : c.2 <;>
      (rw [ha, hb] at h1; rw [hb, hc] at h2; simp_all [gGE]; try exact le_trans h2 h1)

/-- Top growth products, line 156: mean growth rate per product,
five largest means (`nlargest` drops NaN means, keeps infinite ones). -/
def topGrowthProducts (df : Relation) : List (String × GrowthVal) :=
  (List.insertionSort gValueDesc
    ((((trendRows df).map fun c => c.1.2).dedup.map fun p =>
        (p, gMean (((trendRows df).filter fun c => decide (c.1.2 = p)).map
          fun c => c.2.2.2))).filter
      fun m => !decide (m.2 = GrowthVal.nan))).take 5

/-- The month of the immediately preceding populated (month, product)
bucket of product `p` before month `m`: the greatest populated month of
`p` strictly below `m`, or `none` when there is none. -/
def prevPopulatedMonth (df : Relation) (p : String) (m : Nat) : Option Nat :=
  natMax? (((popKeys df).filter fun k => decide (k.2 = p ∧ k.1 < m)).map Prod.fst)

/-- A February 2024 record of product P worth 150, paired with
`sampleRecord` (January 2024, product P, worth 100). -/
def recFebP : ShipmentRecord :=
  { sampleRecord with
      arrival := { date := { year := 2024, month := 2, day := 20 }, timeOfDay := 0 }
      cif := some 150 }

def demoTrend : Relation := [sampleRecord, recFebP]

/-- A product-A relation whose January 2024 bucket is worth exactly 0
(both monetary fields absent) and whose February 2024 bucket is worth
100. -/
def recJanZ : ShipmentRecord :=
  { sampleRecord with productDetails := "A", cif := none, fob := none }

def recFebZ : ShipmentRecord :=
  { sampleRecord with
      arrival := { date := { year := 2024, month := 2, day := 20 }, timeOfDay := 0 }
      productDetails := "A"
      cif := some 100 }

def demoZero : Relation := [recJanZ, recFebZ]

theorem Date.le_trans {a b c : Date} (h1 : Date.le a b) (h2 : Date.le b c) :
    Date.le a c := by
  unfold Date.le at *; omega

/-- C1 (counterexample): on a one-record relation, the importer filter
with an empty selection returns the record unchanged, not an empty
relation — `if selected_importers:` skips the `isin` filter entirely. -/
theorem C1_empty_importer_counterexample :
    importerFilter [sampleRecord] [] ≠ [] := by
  simp [importerFilter]

/-- C1 (amended): an empty importer selection applies no importer filter
(the relation passes through unchanged); a non-empty selection keeps
exactly the records whose importer name is a member of the selection. -/
theorem C1_empty_importer_selection (df : Relation) (sel : List String) :
    (sel = [] → importerFilter df sel = df) ∧
    (sel ≠ [] → ∀ r ∈ importerFilter df sel, r.importerName ∈ sel) := by
  constructor
  · intro h
    subst h
    simp [importerFilter]
  · intro hne r hr
    have hsel : sel.isEmpty = false := by
      cases sel with
      | nil => exact absurd rfl hne
      | cons a l => rfl
    rw [importerFilter, hsel] at hr
    simp only [if_neg Bool.false_ne_true, List.mem_filter] at hr
    simpa using hr.2

/-- C1 (witness): the amended theorem applied at a concrete relation and
the empty selection. -/
theorem C1_empty_importer_selection_witness :
    importerFilter [sampleRecord] [] = [sampleRecord] :=
  (C1_empty_importer_selection [sampleRecord] []).1 rfl

/-- C5: every record surviving the date filter has its date (date part
only) inside the inclusive range; the filtered row count is monotonically
non-increasing as the range narrows; and the filter is insensitive to
the time-of-day component. -/
theorem C5_date_filter (df : Relation) (s e s' e' : Date) :
    (∀ r ∈ dateFilter df s e, Date.le s r.arrival.date ∧ Date.le r.arrival.date e) ∧
    (Date.le s s' → Date.le e' e →
      (dateFilter df s' e').length ≤ (dateFilter df s e).length) ∧
    (∀ t, dateFilter (df.map (setTime t)) s e = (dateFilter df s e).map (setTime t)) := by
  refine ⟨?_, ?_, ?_⟩
  · intro r hr
    have := (List.mem_filter.mp hr).2
    simpa using of_decide_eq_true this
  · intro hs he
    apply List.Sublist.length_le
    apply List.monotone_filter_right
    intro r hp
    have hp' := of_decide_eq_true hp
    exact decide_eq_true
      ⟨Date.le_trans hs hp'.1, Date.le_trans hp'.2 he⟩
  · intro t
    unfold dateFilter
    rw [List.filter_map]
    rfl

/-- C5 (witness): the date-filter theorem applied at a concrete relation
and concrete ranges: bounds hold for the one filtered record, the
narrowed count is bounded, and time-of-day does not matter. -/
theorem C5_date_filter_witness :
    (dateFilter [sampleRecord] ⟨2024, 1, 2⟩ ⟨2024, 1, 9⟩).length ≤
      (dateFilter [sampleRecord] ⟨2024, 1, 1⟩ ⟨2024, 1, 10⟩).length :=
  (C5_date_filter [sampleRecord] ⟨2024, 1, 1⟩ ⟨2024, 1, 10⟩ ⟨2024, 1, 2⟩ ⟨2024, 1, 9⟩).2.1
    (by decide) (by decide)

/-- C6: the derived total value of a record equals
`coalesce(cif, 0) + coalesce(fob, 0)`; it is a total (always-defined)
function into ℚ, and a record with both monetary fields absent gets
total value 0. -/
theorem C6_total_value (r : ShipmentRecord) :
    totalValue r = coalesce r.cif + coalesce r.fob ∧
    (r.cif = none → r.fob = none → totalValue r = 0) := by
  constructor
  · cases hc : r.cif <;> cases hf : r.fob <;>
      simp [totalValue, coalesce, hc, hf]
  · intro hc hf
    simp [totalValue, hc, hf]

/-- C6 (witness): the total-value theorem applied at a concrete record
with both monetary fields absent. -/
theorem C6_total_value_witness :
    totalValue { sampleRecord with cif := none, fob := none } = 0 :=
  (C6_total_value { sampleRecord with cif := none, fob := none }).2 rfl rfl

/-- C9: the filter engine and the derived-column computations produce
new relations and never mutate the cached source relation: after a full
pipeline run the cached relation is unchanged, record for record. -/
theorem C9_no_mutation (s : FilterSpec) (st : DashState) :
    (runPipeline s st).shipping = st.shipping := by
  rfl

/-- Pointwise sum splitting: summing `f + g` over a list equals the sum
of `f` plus the sum of `g` (the per-group CIF/FOB sums of lines 74–75
added at line 75 equal the group sum of the per-record total value). -/
theorem sum_map_add {α : Type} (l : List α) (f g : α → ℚ) :
    (l.map fun x => f x + g x).sum = (l.map f).sum + (l.map g).sum := by
  induction l with
  | nil => simp
  | cons a l ih =>
    simp only [List.map_cons, List.sum_cons, ih]
    ring

/-- C7: Top-K-by-group returns `min K (number of groups)` rows sorted
descending by the summed metric; with K = 10 and three groups the output
has exactly three rows; the importer ranking of lines 74–76 coincides
with Top-K over the per-record total value, and the unit-scoped variant
is Top-K over summed quantity with K = 5. -/
theorem C7_topK_by_group {κ : Type} [DecidableEq κ] (df : Relation)
    (key : ShipmentRecord → κ) (v : ShipmentRecord → ℚ) (K : Nat) :
    (topKByGroup df key v K).length = min K (keysOf df key).length ∧
    ((topKByGroup df key v K).map Prod.snd).Pairwise (fun a b => b ≤ a) ∧
    ((keysOf df key).length = 3 → (topKByGroup df key v 10).length = 3) ∧
    topImporters df = topKByGroup df (fun r => r.importerName) totalValue 10 ∧
    (∀ u, topProductsByUnit df u =
      topKByGroup (df.filter fun r => decide (r.quantityUnit = u))
        (fun r => r.productDetails) (fun r => r.quantity) 5) := by
  have hlen : ∀ K' : Nat, (topKByGroup df key v K').length = min K' (keysOf df key).length := by
    intro K'
    simp [topKByGroup, groupBySum, List.length_take]
  refine ⟨hlen K, ?_, ?_, ?_, fun _ => rfl⟩
  · have hs : (List.insertionSort valueDesc (groupBySum df key v)).Pairwise valueDesc :=
      List.sorted_insertionSort valueDesc (groupBySum df key v)
    have ht : (topKByGroup df key v K).Pairwise valueDesc :=
      List.Pairwise.sublist (List.take_sublist K _) hs
    exact List.pairwise_map.mpr ht
  · intro h3
    rw [hlen 10, h3]
    decide
  · unfold topImporters topKByGroup
    congr 1
    apply congrArg
    unfold groupBySum
    apply List.map_congr_left
    intro k _
    exact congrArg (Prod.mk k)
      (sum_map_add (df.filter fun r : ShipmentRecord => decide (r.importerName = k))
        (fun r => r.cif.getD 0) (fun r => r.fob.getD 0)).symm

/-- C7 (witness): the Top-K theorem applied at a concrete three-importer
relation with K = 10 yields exactly three rows. -/
theorem C7_topK_by_group_witness :
    (topKByGroup df3 (fun r => r.importerName) totalValue 10).length = 3 :=
  (C7_topK_by_group df3 (fun r => r.importerName) totalValue 10).2.2.1 (by decide)

theorem natMin?_eq_none {l : List Nat} : natMin? l = none ↔ l = [] := by
  cases l with
  | nil => simp [natMin?]
  | cons x xs =>
    simp only [natMin?]
    cases natMin? xs <;> simp

theorem natMax?_eq_none {l : List Nat} : natMax? l = none ↔ l = [] := by
  cases l with
  | nil => simp [natMax?]
  | cons x xs =>
    simp only [natMax?]
    cases natMax? xs <;> simp

theorem natMin?_mem {l : List Nat} {m : Nat} (h : natMin? l = some m) : m ∈ l := by
  induction l generalizing m with
  | nil => simp [natMin?] at h
  | cons x xs ih =>
    simp only [natMin?] at h
    cases hx : natMin? xs with
    | none =>
      rw [hx] at h
      simp only [Option.some.injEq] at h
      simp [← h]
    | some m' =>
      rw [hx] at h
      simp only [Option.some.injEq] at h
      rcases min_cases x m' with ⟨hm, _⟩ | ⟨hm, _⟩
      · simp [← h, hm]
      · have := ih hx
        rw [← h, hm]
        exact List.mem_cons_of_mem x this

theorem natMax?_mem {l : List Nat} {m : Nat} (h : natMax? l = some m) : m ∈ l := by
  induction l generalizing m with
  | nil => simp [natMax?] at h
  | cons x xs ih =>
    simp only [natMax?] at h
    cases hx : natMax? xs with
    | none =>
      rw [hx] at h
      simp only [Option.some.injEq] at h
      simp [← h]
    | some m' =>
      rw [hx] at h
      simp only [Option.some.injEq] at h
      rcases max_cases x m' with ⟨hm, _⟩ | ⟨hm, _⟩
      · simp [← h, hm]
      · have := ih hx
        rw [← h, hm]
        exact List.mem_cons_of_mem x this

theorem natMin?_le {l : List Nat} {m : Nat} (h : natMin? l = some m) :
    ∀ x ∈ l, m ≤ x := by
  induction l generalizing m with
  | nil => simp
  | cons x xs ih =>
    simp only [natMin?] at h
    cases hx : natMin? xs with
    | none =>
      have hxs : xs = [] := natMin?_eq_none.mp hx
      rw [hx] at h
      simp only [Option.some.injEq] at h
      subst hxs
      simp [← h]
    | some m' =>
      rw [hx] at h
      simp only [Option.some.injEq] at h
      intro y hy
      rcases List.mem_cons.mp hy with hy | hy
      · subst hy
        omega
      · have := ih hx y hy
        omega

theorem natMax?_ge {l : List Nat} {m : Nat} (h : natMax? l = some m) :
    ∀ x ∈ l, x ≤ m := by
  induction l generalizing m with
  | nil => simp
  | cons x xs ih =>
    simp only [natMax?] at h
    cases hx : natMax? xs with
    | none =>
      have hxs : xs = [] := natMax?_eq_none.mp hx
      rw [hx] at h
      simp only [Option.some.injEq] at h
      subst hxs
      simp [← h]
    | some m' =>
      rw [hx] at h
      simp only [Option.some.injEq] at h
      intro y hy
      rcases List.mem_cons.mp hy with hy | hy
      · subst hy
        omega
      · have := ih hx y hy
        omega

/-- C2 (counterexample): on the gap relation the time series contains a
bucket `(February 2024, 0)` although no record falls in February 2024
(month indices: January 2024 = 24288, February = 24289, March = 24290),
refuting the claim that months without records get no bucket. -/
theorem C2_time_series_counterexample :
    timeSeries demoGap = [(24288, 100), (24289, 0), (24290, 50)] ∧
    demoGap.map (fun r => monthIdx r.arrival) = [24288, 24290] := by
  have hmin : natMin? (demoGap.map fun r => monthIdx r.arrival) = some 24288 := by
    decide
  have hmax : natMax? (demoGap.map fun r => monthIdx r.arrival) = some 24290 := by
    decide
  constructor
  · unfold timeSeries
    rw [hmin, hmax]
    norm_num [List.range_succ, monthSum, demoGap, sampleRecord, recMar,
      monthIdx, totalValue]
  · decide

/-- C2 (amended): the time-series buckets are in strictly increasing
(chronological) month order, the value of each bucket is the sum of the
derived total value over the records of that month, and a month has a bucket
exactly when it lies between the earliest and the latest record month —
months inside that span get a bucket even when they contain no record
(with value 0), rather than being omitted. -/
theorem C2_time_series_buckets (df : Relation) :
    ((timeSeries df).map Prod.fst).Pairwise (· < ·) ∧
    (∀ e ∈ timeSeries df, e.2 = monthSum df e.1) ∧
    (∀ m : Nat, m ∈ (timeSeries df).map Prod.fst ↔
      ((∃ r ∈ df, monthIdx r.arrival ≤ m) ∧ ∃ r ∈ df, m ≤ monthIdx r.arrival)) := by
  cases hmin : natMin? (df.map fun r => monthIdx r.arrival) with
  | none =>
    have hdf : df = [] := by
      have := natMin?_eq_none.mp hmin
      exact List.map_eq_nil_iff.mp this
    subst hdf
    refine ⟨?_, ?_, ?_⟩ <;> simp [timeSeries, natMin?]
  | some lo =>
    cases hmax : natMax? (df.map fun r => monthIdx r.arrival) with
    | none =>
      exfalso
      have := natMax?_eq_none.mp hmax
      rw [this] at hmin
      simp [natMin?] at hmin
    | some hi =>
      have hts : timeSeries df =
          (List.range (hi + 1 - lo)).map fun i => (lo + i, monthSum df (lo + i)) := by
        unfold timeSeries
        rw [hmin, hmax]
      have hlomem : lo ∈ df.map fun r => monthIdx r.arrival := natMin?_mem hmin
      have hhimem : hi ∈ df.map fun r => monthIdx r.arrival := natMax?_mem hmax
      have hlohi : lo ≤ hi := natMax?_ge hmax lo hlomem
      have hkeys : (timeSeries df).map Prod.fst =
          (List.range (hi + 1 - lo)).map fun i => lo + i := by
        rw [hts, List.map_map]
        rfl
      refine ⟨?_, ?_, ?_⟩
      · rw [hkeys]
        exact List.Pairwise.map _ (fun a b h => by omega) (List.pairwise_lt_range _)
      · intro e he
        rw [hts] at he
        rcases List.mem_map.mp he with ⟨i, _, rfl⟩
        rfl
      · intro m
        rw [hkeys]
        constructor
        · intro hm
          rcases List.mem_map.mp hm with ⟨i, hi', rfl⟩
          have hir : i < hi + 1 - lo := List.mem_range.mp hi'
          rcases List.mem_map.mp hlomem with ⟨r1, hr1, hr1e⟩
          rcases List.mem_map.mp hhimem with ⟨r2, hr2, hr2e⟩
          exact ⟨⟨r1, hr1, by omega⟩, ⟨r2, hr2, by omega⟩⟩
        · rintro ⟨⟨r1, hr1, hr1le⟩, ⟨r2, hr2, hr2le⟩⟩
          have h1 : lo ≤ monthIdx r1.arrival :=
            natMin?_le hmin _ (List.mem_map.mpr ⟨r1, hr1, rfl⟩)
          have h2 : monthIdx r2.arrival ≤ hi :=
            natMax?_ge hmax _ (List.mem_map.mpr ⟨r2, hr2, rfl⟩)
          refine List.mem_map.mpr ⟨m - lo, List.mem_range.mpr (by omega), by omega⟩

/-- C2 (witness): the amended theorem applied at the gap relation shows
that the record-free month February 2024 (index 24289) has a bucket. -/
theorem C2_time_series_buckets_witness :
    24289 ∈ (timeSeries demoGap).map Prod.fst :=
  ((C2_time_series_buckets demoGap).2.2 24289).mpr
    ⟨⟨sampleRecord, List.mem_cons_self sampleRecord [recMar], by decide⟩,
     ⟨recMar, by simp [demoGap], by decide⟩⟩

/-- Summing a group-sum over a duplicate-free list of keys that covers
the key of every record recovers the grand total: group-by-sum preserves the
total. -/
theorem sum_ite_eq_of_mem {κ : Type} [DecidableEq κ] (ks : List κ) (c : κ) (x : ℚ)
    (hnd : ks.Nodup) (hm : c ∈ ks) :
    (ks.map fun k => if c = k then x else 0).sum = x := by
  induction ks with
  | nil => simp at hm
  | cons a ks ih =>
    rcases List.nodup_cons.mp hnd with ⟨hna, hnd'⟩
    by_cases hca : c = a
    · subst hca
      have hzero : (ks.map fun k => if c = k then x else 0).sum = 0 := by
        apply List.sum_eq_zero
        intro y hy
        rcases List.mem_map.mp hy with ⟨k, hk, rfl⟩
        have : ¬ c = k := fun h => hna (h ▸ hk)
        simp [this]
      simp [hzero]
    · have hm' : c ∈ ks := by
        rcases List.mem_cons.mp hm with h | h
        · exact absurd h hca
        · exact h
      simp [hca, ih hnd' hm']

theorem sum_groups_eq {κ : Type} [DecidableEq κ] (ks : List κ) (df : Relation)
    (key : ShipmentRecord → κ) (v : ShipmentRecord → ℚ)
    (hnd : ks.Nodup) (hcov : ∀ r ∈ df, key r ∈ ks) :
    (ks.map fun k => ((df.filter fun r => decide (key r = k)).map v).sum).sum =
      (df.map v).sum := by
  induction df with
  | nil => simp
  | cons r df ih =>
    have hterm : ∀ k ∈ ks,
        (((r :: df).filter fun r' => decide (key r' = k)).map v).sum =
          (if key r = k then v r else 0) +
            ((df.filter fun r' => decide (key r' = k)).map v).sum := by
      intro k _
      by_cases h : key r = k <;> simp [List.filter_cons, h]
    rw [List.map_congr_left hterm, sum_map_add ks (fun k => if key r = k then v r else 0)
      (fun k => ((df.filter fun r' => decide (key r' = k)).map v).sum)]
    have h1 : (ks.map fun k => if key r = k then v r else 0).sum = v r :=
      sum_ite_eq_of_mem ks (key r) (v r) hnd (hcov r (List.mem_cons_self r df))
    have h2 := ih (fun r' hr' => hcov r' (List.mem_cons_of_mem r hr'))
    rw [h1, h2]
    simp

/-- C10: group-by-sum preserves the grand total — the sum of the
time-series bucket values and the sum of the per-country totals of the
geographic rollup both equal the total-value KPI of the filtered
relation. -/
theorem C10_grand_total (df : Relation) :
    ((timeSeries df).map Prod.snd).sum = totalValueKPI df ∧
    ((geoRollup df).map Prod.snd).sum = totalValueKPI df := by
  constructor
  · cases hmin : natMin? (df.map fun r => monthIdx r.arrival) with
    | none =>
      have hdf : df = [] := List.map_eq_nil_iff.mp (natMin?_eq_none.mp hmin)
      subst hdf
      simp [timeSeries, natMin?, totalValueKPI]
    | some lo =>
      cases hmax : natMax? (df.map fun r => monthIdx r.arrival) with
      | none =>
        exfalso
        have := natMax?_eq_none.mp hmax
        rw [this] at hmin
        simp [natMin?] at hmin
      | some hi =>
        have hts : timeSeries df =
            (List.range (hi + 1 - lo)).map fun i => (lo + i, monthSum df (lo + i)) := by
          unfold timeSeries
          rw [hmin, hmax]
        rw [hts, List.map_map]
        have hmm : (Prod.snd ∘ fun i => (lo + i, monthSum df (lo + i))) =
            fun i => monthSum df (lo + i) := rfl
        rw [hmm]
        have hrw : ((List.range (hi + 1 - lo)).map fun i => monthSum df (lo + i)) =
            (((List.range (hi + 1 - lo)).map fun i => lo + i).map fun m => monthSum df m) := by
          rw [List.map_map]
          rfl
        rw [hrw]
        apply sum_groups_eq ((List.range (hi + 1 - lo)).map fun i => lo + i) df
          (fun r => monthIdx r.arrival) totalValue
        · exact (List.nodup_range _).map fun a b h => by omega
        · intro r hr
          have h1 : lo ≤ monthIdx r.arrival :=
            natMin?_le hmin _ (List.mem_map.mpr ⟨r, hr, rfl⟩)
          have h2 : monthIdx r.arrival ≤ hi :=
            natMax?_ge hmax _ (List.mem_map.mpr ⟨r, hr, rfl⟩)
          exact List.mem_map.mpr
            ⟨monthIdx r.arrival - lo, List.mem_range.mpr (by omega), by omega⟩
  · unfold geoRollup groupBySum
    rw [List.map_map]
    have hmm : (Prod.snd ∘ fun k =>
        (k, groupSum df (fun r => r.importerCountry) totalValue k)) =
        fun k => groupSum df (fun r => r.importerCountry) totalValue k := rfl
    rw [hmm]
    apply sum_groups_eq (keysOf df fun r => r.importerCountry) df
      (fun r => r.importerCountry) totalValue
    · exact List.nodup_dedup _
    · intro r hr
      exact List.mem_dedup.mpr (List.mem_map.mpr ⟨r, hr, rfl⟩)

/-- C8: every aggregation tolerates an empty input relation: Top-K, the
time series, the trend rows and the top growth products are all empty,
and the three KPI metrics are zero. -/
theorem C8_empty_relation :
    topKByGroup ([] : Relation) (fun r => r.importerName) totalValue 10 = [] ∧
    topImporters [] = [] ∧
    (∀ u, topProductsByUnit [] u = []) ∧
    timeSeries [] = [] ∧
    trendRows [] = [] ∧
    topGrowthProducts [] = [] ∧
    totalValueKPI [] = 0 ∧
    numShipments [] = 0 ∧
    numImporters [] = 0 := by
  refine ⟨rfl, rfl, fun u => rfl, rfl, rfl, rfl, ?_, rfl, rfl⟩
  simp [totalValueKPI]

theorem pairwise_and {α : Type} {R S : α → α → Prop} :
    ∀ {l : List α}, l.Pairwise R → l.Pairwise S →
      l.Pairwise fun a b => R a b ∧ S a b := by
  intro l h1 h2
  induction l with
  | nil => exact List.Pairwise.nil
  | cons a l ih =>
    rcases List.pairwise_cons.mp h1 with ⟨h1a, h1l⟩
    rcases List.pairwise_cons.mp h2 with ⟨h2a, h2l⟩
    exact List.Pairwise.cons (fun b hb => ⟨h1a b hb, h2a b hb⟩) (ih h1l h2l)

theorem keyLE_ne_lt {a b : Nat × String} (hle : keyLE a b) (hne : a ≠ b) :
    keyLT a b := by
  rcases hle with h | ⟨h1, h2⟩
  · exact Or.inl h
  · refine Or.inr ⟨h1, lt_of_le_of_ne h2 ?_⟩
    intro h3
    exact hne (Prod.ext h1 h3)

theorem keyLT_irrefl (a : Nat × String) : ¬ keyLT a a := by
  rintro (h | ⟨_, h⟩)
  · exact lt_irrefl a.1 h
  · exact lt_irrefl a.2 h

theorem trendKeys_nodup (df : Relation) : (trendKeys df).Nodup :=
  (List.perm_insertionSort keyLE (popKeys df).dedup).symm.nodup
    (List.nodup_dedup (popKeys df))

theorem trendKeys_sorted (df : Relation) : (trendKeys df).Pairwise keyLE :=
  List.sorted_insertionSort keyLE (popKeys df).dedup

theorem trendKeys_strict (df : Relation) : (trendKeys df).Pairwise keyLT :=
  (pairwise_and (trendKeys_sorted df) (trendKeys_nodup df)).imp
    fun h => keyLE_ne_lt h.1 h.2

theorem mem_trendKeys {df : Relation} {k : Nat × String} :
    k ∈ trendKeys df ↔ k ∈ popKeys df := by
  unfold trendKeys
  rw [List.mem_insertionSort keyLE]
  exact List.mem_dedup

theorem natMax?_eq_some_of {l : List Nat} {m : Nat} (hm : m ∈ l)
    (hub : ∀ x ∈ l, x ≤ m) : natMax? l = some m := by
  induction l with
  | nil => simp at hm
  | cons x xs ih =>
    rcases List.mem_cons.mp hm with rfl | hm'
    · simp only [natMax?]
      cases hx : natMax? xs with
      | none => rfl
      | some m' =>
        have hle : m' ≤ m := hub m' (List.mem_cons_of_mem m (natMax?_mem hx))
        simp [Nat.max_eq_left hle]
    · have hx : natMax? xs = some m :=
        ih hm' (fun y hy => hub y (List.mem_cons_of_mem x hy))
      have hxle : x ≤ m := hub x (List.mem_cons_self x xs)
      simp only [natMax?, hx]
      simp [Nat.max_eq_right hxle]

theorem firstValueOf_spec (df : Relation) (p : String) (m : Nat) :
    ∀ rpre : List ((Nat × String) × ℚ),
      (rpre.map Prod.fst).Pairwise (flip keyLT) →
      (∀ c ∈ rpre, c.2 = cellSum df c.1) →
      (∀ m' : Nat, (m', p) ∈ rpre.map Prod.fst ↔ (m', p) ∈ popKeys df ∧ m' < m) →
      firstValueOf p rpre =
        (prevPopulatedMonth df p m).map fun m0 => cellSum df (m0, p) := by
  intro rpre
  induction rpre with
  | nil =>
    intro _ _ hmem
    have hfe : ((popKeys df).filter fun k => decide (k.2 = p ∧ k.1 < m)) = [] := by
      rw [List.filter_eq_nil_iff]
      intro k hk hdec
      have hk' := of_decide_eq_true hdec
      have hkp : (k.1, p) ∈ popKeys df ∧ k.1 < m := by
        refine ⟨?_, hk'.2⟩
        have hkk : (k.1, p) = k := by
          rw [← hk'.1]
        rw [hkk]
        exact hk
      have := (hmem k.1).mpr hkp
      simp at this
    unfold prevPopulatedMonth
    rw [hfe]
    rfl
  | cons c rest ih =>
    intro hdesc hval hmem
    by_cases hcp : c.1.2 = p
    · have hfv : firstValueOf p (c :: rest) = some c.2 := by
        simp [firstValueOf, hcp]
      have hc1 : c.1 = (c.1.1, p) := Prod.ext rfl hcp
      have hheadmem : (c.1.1, p) ∈ (c :: rest).map Prod.fst := by
        rw [← hc1]
        exact List.mem_map.mpr ⟨c, List.mem_cons_self c rest, rfl⟩
      have hhead := (hmem c.1.1).mp hheadmem
      have hmax : prevPopulatedMonth df p m = some c.1.1 := by
        unfold prevPopulatedMonth
        apply natMax?_eq_some_of
        · apply List.mem_map.mpr
          refine ⟨(c.1.1, p), ?_, rfl⟩
          apply List.mem_filter.mpr
          exact ⟨hhead.1, decide_eq_true ⟨rfl, hhead.2⟩⟩
        · intro y hy
          rcases List.mem_map.mp hy with ⟨k, hkf, rfl⟩
          rcases List.mem_filter.mp hkf with ⟨hkpop, hkdec⟩
          have hk' := of_decide_eq_true hkdec
          have hkp : (k.1, p) ∈ popKeys df ∧ k.1 < m := by
            refine ⟨?_, hk'.2⟩
            have hkk : (k.1, p) = k := by
              rw [← hk'.1]
            rw [hkk]
            exact hkpop
          have hkmem := (hmem k.1).mpr hkp
          simp only [List.map_cons, List.mem_cons] at hkmem
          rcases hkmem with heq | hrest
          · have h9 : k.1 = c.1.1 := by
              rw [← heq]
            omega
          · have hdesc' := hdesc
            rw [List.map_cons] at hdesc'
            have hlt : keyLT (k.1, p) c.1 :=
              (List.pairwise_cons.mp hdesc').1 (k.1, p) hrest
            rcases hlt with h | ⟨_, h⟩
            · exact Nat.le_of_lt h
            · exact absurd (hcp ▸ h) (lt_irrefl p)
      rw [hfv, hval c (List.mem_cons_self c rest), hmax, Option.map_some', ← hc1]
    · have hfv : firstValueOf p (c :: rest) = firstValueOf p rest := by
        simp [firstValueOf, hcp]
      rw [hfv]
      have hdesc' := hdesc
      rw [List.map_cons] at hdesc'
      apply ih
      · exact (List.pairwise_cons.mp hdesc').2
      · exact fun c' hc' => hval c' (List.mem_cons_of_mem c hc')
      · intro m'
        constructor
        · intro h
          refine (hmem m').mp ?_
          simp only [List.map_cons, List.mem_cons]
          exact Or.inr h
        · intro h
          have := (hmem m').mpr h
          simp only [List.map_cons, List.mem_cons] at this
          rcases this with heq | hrest
          · exact absurd (congrArg Prod.snd heq).symm hcp
          · exact hrest

theorem withPrevAux_spec (df : Relation) :
    ∀ cells rpre : List ((Nat × String) × ℚ),
      ((rpre.reverse ++ cells).map Prod.fst).Pairwise keyLT →
      (∀ c ∈ rpre.reverse ++ cells, c.2 = cellSum df c.1) →
      (∀ k : Nat × String, k ∈ (rpre.reverse ++ cells).map Prod.fst ↔ k ∈ popKeys df) →
      ∀ e ∈ withPrevAux rpre cells,
        e.2.2 = (prevPopulatedMonth df e.1.2 e.1.1).map fun m0 => cellSum df (m0, e.1.2) := by
  intro cells
  induction cells with
  | nil =>
    intro rpre _ _ _ e he
    simp [withPrevAux] at he
  | cons c rest ih =>
    intro rpre hsorted hval hcov e he
    rw [withPrevAux] at he
    have hsplit : ((rpre.reverse ++ c :: rest).map Prod.fst) =
        (rpre.map Prod.fst).reverse ++ (c :: rest).map Prod.fst := by
      rw [List.map_append, List.map_reverse]
    rcases List.mem_cons.mp he with rfl | he'
    · show firstValueOf c.1.2 rpre =
        (prevPopulatedMonth df c.1.2 c.1.1).map fun m0 => cellSum df (m0, c.1.2)
      have hsorted' := hsplit ▸ hsorted
      rcases List.pairwise_append.mp hsorted' with ⟨hleft, hright, hcross⟩
      apply firstValueOf_spec df c.1.2 c.1.1 rpre
      · exact List.pairwise_reverse.mp hleft
      · intro c' hc'
        exact hval c' (List.mem_append_left _ (List.mem_reverse.mpr hc'))
      · intro m'
        constructor
        · intro h
          constructor
          · apply (hcov (m', c.1.2)).mp
            rw [hsplit]
            exact List.mem_append_left _ (List.mem_reverse.mpr h)
          · have hlt : keyLT (m', c.1.2) c.1 := by
              apply hcross (m', c.1.2) (List.mem_reverse.mpr h) c.1
              simp
            rcases hlt with h1 | ⟨_, h1⟩
            · exact h1
            · exact absurd h1 (lt_irrefl c.1.2)
        · rintro ⟨hpop, hlt⟩
          have hmem := (hcov (m', c.1.2)).mpr hpop
          rw [hsplit] at hmem
          rcases List.mem_append.mp hmem with hL | hR
          · exact List.mem_reverse.mp hL
          · exfalso
            simp only [List.map_cons, List.mem_cons] at hR
            rcases hR with heq | hrest
            · have h9 : m' = c.1.1 := by
                rw [← heq]
              omega
            · have hright' := hright
              rw [List.map_cons] at hright'
              have hlt2 : keyLT c.1 (m', c.1.2) :=
                (List.pairwise_cons.mp hright').1 (m', c.1.2) hrest
              rcases hlt2 with h1 | ⟨h1, h2⟩
              · omega
              · exact absurd h2 (lt_irrefl c.1.2)
    · have hre : (c :: rpre).reverse ++ rest = rpre.reverse ++ c :: rest := by
        rw [List.reverse_cons, List.append_assoc, List.singleton_append]
      exact ih (c :: rpre) (by rw [hre]; exact hsorted)
        (by rw [hre]; exact hval) (by rw [hre]; exact hcov) e he'

theorem trendCells_keys (df : Relation) :
    (trendCells df).map Prod.fst = trendKeys df := by
  unfold trendCells
  rw [List.map_map]
  exact List.map_id (trendKeys df)

theorem trendWithPrev_spec (df : Relation) :
    ∀ e ∈ trendWithPrev df,
      e.2.2 = (prevPopulatedMonth df e.1.2 e.1.1).map fun m0 => cellSum df (m0, e.1.2) := by
  apply withPrevAux_spec df (trendCells df) []
  · simp only [List.reverse_nil, List.nil_append]
    rw [trendCells_keys]
    exact trendKeys_strict df
  · intro c hc
    simp only [List.reverse_nil, List.nil_append] at hc
    rcases List.mem_map.mp hc with ⟨k, _, rfl⟩
    rfl
  · intro k
    simp only [List.reverse_nil, List.nil_append]
    rw [trendCells_keys]
    exact mem_trendKeys

theorem demoTrend_keys : trendKeys demoTrend = [(24288, "P"), (24289, "P")] := by
  decide

theorem demoTrend_cells :
    trendCells demoTrend = [((24288, "P"), 100), ((24289, "P"), 150)] := by
  unfold trendCells
  rw [demoTrend_keys]
  norm_num [cellSum, recKey, demoTrend, sampleRecord, recFebP, monthIdx, totalValue]

theorem demoTrend_withPrev :
    trendWithPrev demoTrend =
      [((24288, "P"), 100, none), ((24289, "P"), 150, some 100)] := by
  unfold trendWithPrev
  rw [demoTrend_cells]
  rfl

theorem demoTrend_rows :
    trendRows demoTrend = [((24289, "P"), 150, 100, GrowthVal.fin 50)] := by
  unfold trendRows
  rw [demoTrend_withPrev]
  norm_num [List.filterMap_cons, growthRate]
  simp

/-- C3: for every relation, the `PREV TOTAL VALUE` of each (month,
product) trend row is the cell sum of the immediately preceding
populated month bucket of the same product (months where the product
has no record are skipped), rows with no previous value are dropped, and
the concrete example — product P worth 100 in January and 150 in
February — yields exactly one trend row, for February, with growth rate
50. -/
theorem C3_growth_previous_bucket (df : Relation) :
    (∀ e ∈ trendWithPrev df,
      e.2.2 = (prevPopulatedMonth df e.1.2 e.1.1).map fun m0 => cellSum df (m0, e.1.2)) ∧
    (∀ t ∈ trendRows df, ∃ m0,
      prevPopulatedMonth df t.1.2 t.1.1 = some m0 ∧ t.2.2.1 = cellSum df (m0, t.1.2)) ∧
    trendRows demoTrend = [((24289, "P"), 150, 100, GrowthVal.fin 50)] := by
  refine ⟨trendWithPrev_spec df, ?_, demoTrend_rows⟩
  intro t ht
  rcases List.mem_filterMap.mp ht with ⟨e, he, hfe⟩
  have hspec := trendWithPrev_spec df e he
  cases hee : e.2.2 with
  | none =>
    rw [hee] at hfe
    simp at hfe
  | some p =>
    simp only [hee] at hfe
    by_cases hg : growthRate e.2.1 p = GrowthVal.nan
    · rw [if_pos hg] at hfe
      simp at hfe
    · rw [if_neg hg] at hfe
      have ht' := Option.some.inj hfe
      rw [hee] at hspec
      cases hppm : prevPopulatedMonth df e.1.2 e.1.1 with
      | none =>
        rw [hppm] at hspec
        simp at hspec
      | some m0 =>
        rw [hppm] at hspec
        simp only [Option.map_some'] at hspec
        have hp : p = cellSum df (m0, e.1.2) := Option.some.inj hspec
        refine ⟨m0, ?_, ?_⟩
        · rw [← ht']
          exact hppm
        · rw [← ht']
          exact hp

/-- C3 (witness): the theorem applied at the concrete two-record
relation, at its February row: the previous value is the January cell
sum. -/
theorem C3_growth_previous_bucket_witness :
    some (100 : ℚ) =
      (prevPopulatedMonth demoTrend "P" 24289).map fun m0 => cellSum demoTrend (m0, "P") := by
  have hmem : ((24289, "P"), (150 : ℚ), some (100 : ℚ)) ∈ trendWithPrev demoTrend := by
    rw [demoTrend_withPrev]
    simp
  exact (C3_growth_previous_bucket demoTrend).1 ((24289, "P"), (150 : ℚ), some (100 : ℚ)) hmem

theorem demoZero_keys : trendKeys demoZero = [(24288, "A"), (24289, "A")] := by
  decide

theorem demoZero_cells :
    trendCells demoZero = [((24288, "A"), 0), ((24289, "A"), 100)] := by
  unfold trendCells
  rw [demoZero_keys]
  norm_num [cellSum, recKey, demoZero, sampleRecord, recJanZ, recFebZ, monthIdx, totalValue]

theorem demoZero_withPrev :
    trendWithPrev demoZero =
      [((24288, "A"), 0, none), ((24289, "A"), 100, some 0)] := by
  unfold trendWithPrev
  rw [demoZero_cells]
  rfl

theorem demoZero_rows :
    trendRows demoZero = [((24289, "A"), 100, 0, GrowthVal.posInf)] := by
  unfold trendRows
  rw [demoZero_withPrev]
  norm_num [List.filterMap_cons, growthRate]
  simp

theorem demoZero_top :
    topGrowthProducts demoZero = [("A", GrowthVal.posInf)] := by
  unfold topGrowthProducts
  rw [demoZero_rows]
  rfl

/-- C4 (counterexample): on the zero-previous relation the February row
(previous value 0, current 100) is not excluded: it survives `dropna`
with growth `+inf`, and the infinity propagates into the top-5 growth
ranking, refuting the claimed exclude-such-rows policy. -/
theorem C4_zero_previous_counterexample :
    topGrowthProducts demoZero = [("A", GrowthVal.posInf)] ∧
    trendRows demoZero = [((24289, "A"), 100, 0, GrowthVal.posInf)] :=
  ⟨demoZero_top, demoZero_rows⟩

/-- C4 (amended): the trend computation never raises an arithmetic
fault and never keeps a NaN growth rate (`dropna` removes the rows where
both the previous value and the difference are 0); but a row whose
previous value is 0 and whose current value is positive is kept with
growth `+inf`, which flows into the per-product mean and the top-5
ranking rather than being excluded. -/
theorem C4_zero_previous_policy (df : Relation) :
    (∀ t ∈ trendRows df, t.2.2.2 ≠ GrowthVal.nan) ∧
    (∀ cur prev : ℚ, prev = 0 → cur ≠ 0 →
      growthRate cur prev = GrowthVal.posInf ∨ growthRate cur prev = GrowthVal.negInf) ∧
    (∀ e ∈ trendWithPrev df, e.2.2 = some 0 → 0 < e.2.1 →
      (e.1, e.2.1, 0, GrowthVal.posInf) ∈ trendRows df) := by
  refine ⟨?_, ?_, ?_⟩
  · intro t ht
    rcases List.mem_filterMap.mp ht with ⟨e, he, hfe⟩
    cases hee : e.2.2 with
    | none =>
      rw [hee] at hfe
      simp at hfe
    | some p =>
      simp only [hee] at hfe
      by_cases hg : growthRate e.2.1 p = GrowthVal.nan
      · rw [if_pos hg] at hfe
        simp at hfe
      · rw [if_neg hg] at hfe
        have ht' := Option.some.inj hfe
        rw [← ht']
        exact hg
  · intro cur prev hp hc
    unfold growthRate
    rw [if_pos hp, if_neg hc]
    by_cases h0 : 0 < cur
    · rw [if_pos h0]
      exact Or.inl rfl
    · rw [if_neg h0]
      exact Or.inr rfl
  · intro e he hprev hpos
    apply List.mem_filterMap.mpr
    refine ⟨e, he, ?_⟩
    simp only [hprev]
    have hg : growthRate e.2.1 0 = GrowthVal.posInf := by
      unfold growthRate
      rw [if_pos rfl, if_neg (ne_of_gt hpos), if_pos hpos]
    rw [hg]
    simp

/-- C4 (witness): the amended theorem applied at the zero-previous
relation: the February row with previous value 0 and current value 100
is kept with growth `+inf`. -/
theorem C4_zero_previous_policy_witness :
    ((24289, "A"), (100 : ℚ), (0 : ℚ), GrowthVal.posInf) ∈ trendRows demoZero := by
  have hmem : ((24289, "A"), (100 : ℚ), some (0 : ℚ)) ∈ trendWithPrev demoZero := by
    rw [demoZero_withPrev]
    simp
  exact (C4_zero_previous_policy demoZero).2.2
    ((24289, "A"), (100 : ℚ), some (0 : ℚ)) hmem rfl (by norm_num)

end Shipping
